import Mathlib

/-!
Verification development for the FastAgent streaming chat client
(`frontend/src/App.tsx`).  The file embeds the stream decoder
(`streamChat`), the payload filter (`safeJsonParse` plus the
`'type' in event` guard), the per-event message assembler of the
`ChatModelAdapter.run` loop, the snapshot derivation
(`buildAssistantParts`) and the prompt extraction
(`extractUserPrompt`) as executable Lean definitions, and proves the
claimed properties about them.

Byte streams are lists of naturals (byte values), decoded text is a
list of Unicode code points (mirroring JS string contents for every
operation the code performs on them), and JSON values are a simple
inductive mirroring what `JSON.parse` can produce.
-/

namespace FastAgent

/-! ## Stream decoder: incremental UTF-8 (WHATWG `TextDecoder`) -/

/-- State of the WHATWG UTF-8 decoder used by `new TextDecoder()` with
`stream: true`: the partially accumulated code point, how many
continuation bytes are still needed / already seen, and the admissible
range for the next continuation byte. -/
structure DecSt where
  codePoint : Nat
  bytesNeeded : Nat
  bytesSeen : Nat
  lower : Nat
  upper : Nat
  deriving Repr, DecidableEq

def DecSt.start : DecSt := ⟨0, 0, 0, 0x80, 0xBF⟩

/-- Handler for a byte arriving while no multi-byte sequence is open
(the `bytes needed = 0` case of the WHATWG UTF-8 decoder). -/
def utf8Begin (b : Nat) : DecSt × List Nat :=
  if b ≤ 0x7F then (DecSt.start, [b])
  else if 0xC2 ≤ b ∧ b ≤ 0xDF then
    ({ codePoint := b % 32, bytesNeeded := 1, bytesSeen := 0, lower := 0x80, upper := 0xBF }, [])
  else if 0xE0 ≤ b ∧ b ≤ 0xEF then
    ({ codePoint := b % 16, bytesNeeded := 2, bytesSeen := 0,
       lower := if b = 0xE0 then 0xA0 else 0x80,
       upper := if b = 0xED then 0x9F else 0xBF }, [])
  else if 0xF0 ≤ b ∧ b ≤ 0xF4 then
    ({ codePoint := b % 8, bytesNeeded := 3, bytesSeen := 0,
       lower := if b = 0xF0 then 0x90 else 0x80,
       upper := if b = 0xF4 then 0x8F else 0xBF }, [])
  else (DecSt.start, [0xFFFD])

/-- Feed one byte to the incremental UTF-8 decoder, producing the
emitted code points (the replacement character `U+FFFD` on errors; a
byte outside the continuation range emits the replacement character and
is then reprocessed as a sequence start, as the WHATWG decoder
prescribes). -/
def feedByte (st : DecSt) (b : Nat) : DecSt × List Nat :=
  if st.bytesNeeded = 0 then utf8Begin b
  else if b < st.lower ∨ st.upper < b then
    ((utf8Begin b).1, 0xFFFD :: (utf8Begin b).2)
  else if st.bytesSeen + 1 = st.bytesNeeded then
    (DecSt.start, [st.codePoint * 64 + b % 64])
  else
    ({ codePoint := st.codePoint * 64 + b % 64, bytesNeeded := st.bytesNeeded,
       bytesSeen := st.bytesSeen + 1, lower := 0x80, upper := 0xBF }, [])

/-- Feed a chunk of bytes, accumulating the emitted code points. -/
def feedBytes (st : DecSt) (bs : List Nat) : DecSt × List Nat :=
  bs.foldl (fun acc b => ((feedByte acc.1 b).1, acc.2 ++ (feedByte acc.1 b).2)) (st, [])

/-- Removal of a leading byte-order mark: `new TextDecoder()` defaults
to `ignoreBOM: false`, so the first code point of the decoded stream is
dropped when it is `U+FEFF`.  The flag records whether the first code
point has already been seen. -/
def stripBom (seen : Bool) (cps : List Nat) : Bool × List Nat :=
  if seen then (true, cps)
  else
    match cps with
    | [] => (false, [])
    | c :: rest => (true, if c = 0xFEFF then rest else c :: rest)

/-! ## Stream decoder: frame extraction (`streamChat`) -/

/-- Whitespace as the JS `String.prototype.trim` sees it (WhiteSpace
plus LineTerminator code points). -/
def isJsWs (c : Nat) : Bool :=
  c = 0x9 ∨ c = 0xA ∨ c = 0xB ∨ c = 0xC ∨ c = 0xD ∨ c = 0x20 ∨ c = 0xA0 ∨
  c = 0x1680 ∨ (0x2000 ≤ c ∧ c ≤ 0x200A) ∨ c = 0x2028 ∨ c = 0x2029 ∨
  c = 0x202F ∨ c = 0x205F ∨ c = 0x3000 ∨ c = 0xFEFF

/-- The JS `trim()` on a string given as a code-point list. -/
def jsTrimL (s : List Nat) : List Nat :=
  ((s.dropWhile isJsWs).reverse.dropWhile isJsWs).reverse

/-- The JS `split('\n')`, keeping empty pieces, on a code-point list. -/
def splitNL : List Nat → List (List Nat)
  | [] => [[]]
  | c :: rest =>
    if c = 10 then [] :: splitNL rest
    else
      match splitNL rest with
      | l :: ls => (c :: l) :: ls
      | [] => [[c]]

/-- Code points of the `"data:"` line marker. -/
def dataTag : List Nat := [100, 97, 116, 97, 58]

/-- Payload extraction from one frame, mirroring the inner loop of
`streamChat`: trim the frame, split it on `'\n'`, keep the lines
starting with `"data:"`, take the text after the marker, trim it, and
drop empty payloads. -/
def framePayloads (frame : List Nat) : List (List Nat) :=
  ((splitNL (jsTrimL frame)).map (fun line =>
    if line.take 5 = dataTag then
      if jsTrimL (line.drop 5) = [] then [] else [jsTrimL (line.drop 5)]
    else [])).flatten

/-- First occurrence of the `"\n\n"` delimiter, mirroring
`buffer.indexOf('\n\n')`: returns the text before the first occurrence
and the text after it, or `none` when there is no occurrence. -/
def splitNN : List Nat → Option (List Nat × List Nat)
  | [] => none
  | [_] => none
  | c1 :: c2 :: rest =>
    if c1 = 10 ∧ c2 = 10 then some ([], rest)
    else
      match splitNN (c2 :: rest) with
      | some (a, b) => some (c1 :: a, b)
      | none => none

theorem splitNN_length {buf a b : List Nat} (h : splitNN buf = some (a, b)) :
    b.length < buf.length := by
  induction buf generalizing a b with
  | nil => simp [splitNN] at h
  | cons c1 rest ih =>
    match rest with
    | [] => simp [splitNN] at h
    | c2 :: rest2 =>
      rw [splitNN] at h
      by_cases hc : c1 = 10 ∧ c2 = 10
      · simp only [hc, if_true] at h
        cases h
        simp
        omega
      · simp only [hc, if_false] at h
        cases h2 : splitNN (c2 :: rest2) with
        | none => rw [h2] at h; cases h
        | some p =>
          rw [h2] at h
          cases h
          have := ih h2
          simpa using Nat.lt_trans this (Nat.lt_succ_self _)

/-- Fuel-indexed frame extraction; the fuel only bounds the recursion
depth (each extracted frame consumes at least two buffer characters, so
`buf.length` is always enough fuel). -/
def extractAllF : Nat → List Nat → List (List Nat) × List Nat
  | 0, buf => ([], buf)
  | fuel + 1, buf =>
    match splitNN buf with
    | some (a, b) => ((a :: (extractAllF fuel b).1), (extractAllF fuel b).2)
    | none => ([], buf)

/-- Repeated frame extraction, mirroring the
`while (boundary !== -1)` loop of `streamChat`: peel complete
`"\n\n"`-terminated frames off the front of the buffer, returning the
frames in order together with the unterminated remainder. -/
def extractAll (buf : List Nat) : List (List Nat) × List Nat :=
  extractAllF buf.length buf

theorem extractAllF_fuel : ∀ (f1 f2 : Nat) (buf : List Nat),
    buf.length ≤ f1 → buf.length ≤ f2 → extractAllF f1 buf = extractAllF f2 buf := by
  intro f1
  induction f1 with
  | zero =>
    intro f2 buf h1 h2
    have hb : buf = [] := List.length_eq_zero.mp (Nat.le_zero.mp h1)
    subst hb
    cases f2 with
    | zero => rfl
    | succ m => rfl
  | succ n ih =>
    intro f2 buf h1 h2
    cases f2 with
    | zero =>
      have hb : buf = [] := List.length_eq_zero.mp (Nat.le_zero.mp h2)
      subst hb
      rfl
    | succ m =>
      show (match splitNN buf with
            | some (a, b) => ((a :: (extractAllF n b).1), (extractAllF n b).2)
            | none => ([], buf))
          = (match splitNN buf with
            | some (a, b) => ((a :: (extractAllF m b).1), (extractAllF m b).2)
            | none => ([], buf))
      cases h : splitNN buf with
      | none => rfl
      | some p =>
        obtain ⟨pa, pb⟩ := p
        have hl := splitNN_length h
        dsimp only
        rw [ih m pb (by omega) (by omega)]

/-- State carried by `streamChat` across reads: the `TextDecoder`
state (including its BOM flag) and the text buffer. -/
structure SSESt where
  dec : DecSt
  bomSeen : Bool
  buffer : List Nat
  deriving Repr, DecidableEq

def SSESt.start : SSESt := ⟨DecSt.start, false, []⟩

/-- Processing of one network chunk by `streamChat`: decode the bytes
(statefully), append to the buffer, extract every complete frame and
emit its payload strings in order. -/
def stepChunk (st : SSESt) (bytes : List Nat) : SSESt × List (List Nat) :=
  (⟨(feedBytes st.dec bytes).1,
    (stripBom st.bomSeen (feedBytes st.dec bytes).2).1,
    (extractAll (st.buffer ++ (stripBom st.bomSeen (feedBytes st.dec bytes).2).2)).2⟩,
   ((extractAll (st.buffer ++ (stripBom st.bomSeen (feedBytes st.dec bytes).2).2)).1.map
      framePayloads).flatten)

/-- Run of the `streamChat` read loop over a list of chunks from a
given state, collecting every payload emitted; when the source reports
`done` the loop exits and the remaining buffer is dropped. -/
def payloadsFrom (st : SSESt) : List (List Nat) → List (List Nat)
  | [] => []
  | c :: cs => (stepChunk st c).2 ++ payloadsFrom (stepChunk st c).1 cs

/-- State of `streamChat` after consuming a list of chunks. -/
def sseStateAfter (st : SSESt) (cs : List (List Nat)) : SSESt :=
  cs.foldl (fun s c => (stepChunk s c).1) st

/-- Ordered payload strings produced by `streamChat` for a byte source
delivered as the given list of chunks. -/
def streamPayloads (chunks : List (List Nat)) : List (List Nat) :=
  payloadsFrom SSESt.start chunks

/-! ## Decoder composition lemmas -/

theorem feedBytes_acc (st : DecSt) (bs : List Nat) (o : List Nat) :
    bs.foldl (fun acc b => ((feedByte acc.1 b).1, acc.2 ++ (feedByte acc.1 b).2)) (st, o)
      = ((feedBytes st bs).1, o ++ (feedBytes st bs).2) := by
  induction bs generalizing st o with
  | nil => simp [feedBytes]
  | cons b bs ih =>
    simp only [feedBytes, List.foldl_cons, List.nil_append]
    rw [ih ((feedByte st b).1) (o ++ (feedByte st b).2),
        ih ((feedByte st b).1) ((feedByte st b).2)]
    simp [feedBytes, List.append_assoc]

theorem feedBytes_append (st : DecSt) (a b : List Nat) :
    feedBytes st (a ++ b)
      = ((feedBytes (feedBytes st a).1 b).1,
         (feedBytes st a).2 ++ (feedBytes (feedBytes st a).1 b).2) := by
  simp only [feedBytes, List.foldl_append]
  exact feedBytes_acc (feedBytes st a).1 b (feedBytes st a).2

theorem stripBom_append (seen : Bool) (a b : List Nat) :
    stripBom seen (a ++ b)
      = ((stripBom (stripBom seen a).1 b).1,
         (stripBom seen a).2 ++ (stripBom (stripBom seen a).1 b).2) := by
  cases seen with
  | true => simp [stripBom]
  | false =>
    cases a with
    | nil => simp [stripBom]
    | cons c rest =>
      by_cases hc : c = 0xFEFF <;> simp [stripBom, hc]

theorem splitNN_append_some {x a b : List Nat} (y : List Nat)
    (h : splitNN x = some (a, b)) : splitNN (x ++ y) = some (a, b ++ y) := by
  induction x generalizing a b with
  | nil => simp [splitNN] at h
  | cons c1 rest ih =>
    match rest with
    | [] => simp [splitNN] at h
    | c2 :: rest2 =>
      rw [splitNN] at h
      rw [List.cons_append, List.cons_append, splitNN]
      by_cases hc : c1 = 10 ∧ c2 = 10
      · simp only [hc, if_true] at h ⊢
        cases h
        rfl
      · simp only [hc, if_false] at h ⊢
        cases h2 : splitNN (c2 :: rest2) with
        | none => rw [h2] at h; cases h
        | some p =>
          rw [h2] at h
          cases h
          have h3 := ih h2
          rw [List.cons_append] at h3
          rw [h3]

theorem extractAll_some {buf a b : List Nat} (h : splitNN buf = some (a, b)) :
    extractAll buf = (a :: (extractAll b).1, (extractAll b).2) := by
  have hl := splitNN_length h
  unfold extractAll
  cases hn : buf.length with
  | zero =>
    have hb : buf = [] := List.length_eq_zero.mp hn
    subst hb
    simp [splitNN] at h
  | succ n =>
    show (match splitNN buf with
          | some (a, b) => ((a :: (extractAllF n b).1), (extractAllF n b).2)
          | none => ([], buf)) = _
    rw [h]
    dsimp only
    rw [extractAllF_fuel n b.length b (by omega) (Nat.le_refl _)]

theorem extractAll_none {buf : List Nat} (h : splitNN buf = none) :
    extractAll buf = ([], buf) := by
  unfold extractAll
  cases hn : buf.length with
  | zero =>
    have hb : buf = [] := List.length_eq_zero.mp hn
    subst hb
    rfl
  | succ n =>
    show (match splitNN buf with
          | some (a, b) => ((a :: (extractAllF n b).1), (extractAllF n b).2)
          | none => ([], buf)) = _
    rw [h]

theorem extractAll_rest (buf : List Nat) : splitNN (extractAll buf).2 = none := by
  generalize hn : buf.length = n
  induction n using Nat.strong_induction_on generalizing buf with
  | _ n ih =>
    cases h : splitNN buf with
    | none => rw [extractAll_none h]; exact h
    | some p =>
      have h2 : splitNN buf = some (p.1, p.2) := by rw [h]
      rw [extractAll_some h2]
      exact ih p.2.length (hn ▸ splitNN_length h2) p.2 rfl

theorem extractAll_append (x y : List Nat) :
    extractAll (x ++ y)
      = ((extractAll x).1 ++ (extractAll ((extractAll x).2 ++ y)).1,
         (extractAll ((extractAll x).2 ++ y)).2) := by
  generalize hn : x.length = n
  induction n using Nat.strong_induction_on generalizing x with
  | _ n ih =>
    cases h : splitNN x with
    | none =>
      rw [extractAll_none h]
      simp
    | some p =>
      have h2 : splitNN x = some (p.1, p.2) := by rw [h]
      rw [extractAll_some h2, extractAll_some (splitNN_append_some y h2),
        ih p.2.length (hn ▸ splitNN_length h2) p.2 rfl]
      rfl

theorem stepChunk_append (st : SSESt) (a b : List Nat) :
    stepChunk st (a ++ b)
      = ((stepChunk (stepChunk st a).1 b).1,
         (stepChunk st a).2 ++ (stepChunk (stepChunk st a).1 b).2) := by
  simp only [stepChunk, feedBytes_append, stripBom_append]
  rw [← List.append_assoc st.buffer]
  rw [extractAll_append (st.buffer ++ (stripBom st.bomSeen (feedBytes st.dec a).2).2)]
  simp

theorem payloadsFrom_append (st : SSESt) (cs ds : List (List Nat)) :
    payloadsFrom st (cs ++ ds)
      = payloadsFrom st cs ++ payloadsFrom (sseStateAfter st cs) ds := by
  induction cs generalizing st with
  | nil => simp [payloadsFrom, sseStateAfter]
  | cons c cs ih =>
    rw [List.cons_append]
    show (stepChunk st c).2 ++ payloadsFrom (stepChunk st c).1 (cs ++ ds) = _
    rw [ih]
    show _ = (stepChunk st c).2 ++ payloadsFrom (stepChunk st c).1 cs
      ++ payloadsFrom (sseStateAfter (stepChunk st c).1 cs) ds
    rw [List.append_assoc]

theorem stepChunk_buffer_rest (st : SSESt) (c : List Nat) :
    splitNN ((stepChunk st c).1).buffer = none :=
  extractAll_rest _

theorem stepChunk_nil (st : SSESt) (h : splitNN st.buffer = none) :
    stepChunk st [] = (st, []) := by
  have hb : (stripBom st.bomSeen (feedBytes st.dec []).2).2 = [] := by
    cases st.bomSeen <;> simp [feedBytes, stripBom]
  have hs : (stripBom st.bomSeen (feedBytes st.dec []).2).1 = st.bomSeen := by
    cases st.bomSeen <;> simp [feedBytes, stripBom]
  simp only [stepChunk, hb, hs, List.append_nil, extractAll_none h]
  simp [feedBytes]

theorem payloadsFrom_flatten (cs : List (List Nat)) (st : SSESt)
    (h : splitNN st.buffer = none) :
    payloadsFrom st cs = payloadsFrom st [cs.flatten] := by
  induction cs generalizing st with
  | nil =>
    simp only [payloadsFrom, List.flatten_nil]
    rw [stepChunk_nil st h]
    rfl
  | cons c cs ih =>
    simp only [payloadsFrom, List.flatten_cons]
    rw [ih (stepChunk st c).1 (stepChunk_buffer_rest st c)]
    simp only [payloadsFrom, stepChunk_append, List.append_nil, List.append_assoc]

/-- Claim C2.  For every byte sequence and every partition of it into
chunks (including splits mid-UTF-8-codepoint, mid-`"\n\n"`-delimiter
and mid-line), the stream decoder produces the identical ordered
sequence of payload strings as decoding the whole byte sequence
delivered in a single chunk. -/
theorem streamChat_chunking_invariant (chunks : List (List Nat)) :
    streamPayloads chunks = streamPayloads [chunks.flatten] :=
  payloadsFrom_flatten chunks SSESt.start rfl

/-! ## JSON values and the event filter -/

/-- Values `JSON.parse` can produce.  Object fields are kept in
insertion order, as JS does. -/
inductive Json where
  | null : Json
  | bool (b : Bool) : Json
  | num (n : Int) : Json
  | str (s : String) : Json
  | arr (elems : List Json) : Json
  | obj (fields : List (String × Json)) : Json

/-- Truthiness of a parsed JSON value under the JS `if (event && ...)`
test. -/
def jsTruthy : Json → Bool
  | .null => false
  | .bool b => b
  | .num n => n ≠ 0
  | .str s => s ≠ ""
  | .arr _ => true
  | .obj _ => true

/-- The JS `typeof` of a parsed JSON value. -/
def jsTypeof : Json → String
  | .null => "object"
  | .bool _ => "boolean"
  | .num _ => "number"
  | .str _ => "string"
  | .arr _ => "object"
  | .obj _ => "object"

/-- The JS `'k' in v` membership test on a parsed JSON value (an array
has no such named property; the filter only reaches this test after
`typeof` has ruled out primitives). -/
def hasKey (v : Json) (k : String) : Bool :=
  match v with
  | .obj fields => fields.any (fun f => f.1 = k)
  | _ => false

/-- Event emission decision of `streamChat` for one payload, mirroring
`safeJsonParse` plus the guard
`if (event && typeof event === 'object' && 'type' in event)`.
`parsed = none` is a `JSON.parse` exception, in which case
`safeJsonParse` returns the raw payload string, whose `typeof` is
`'string'` and which therefore never passes the guard. -/
def emittedEvent (parsed : Option Json) : Option Json :=
  match parsed with
  | none => none
  | some v => if jsTruthy v ∧ jsTypeof v = "object" ∧ hasKey v "type" then some v else none

/-! ## JSON.stringify (indent 2), used for `argsText` -/

/-- Lowercase hex digit. -/
def hexDigit (n : Nat) : Char :=
  if n < 10 then Char.ofNat (48 + n) else Char.ofNat (87 + n)

/-- Escaping of one character inside a JSON string literal, as
`JSON.stringify` does it. -/
def escChar (c : Char) : String :=
  if c = Char.ofNat 34 then "\\\""
  else if c = Char.ofNat 92 then "\\\\"
  else if c = Char.ofNat 8 then "\\b"
  else if c = Char.ofNat 9 then "\\t"
  else if c = Char.ofNat 10 then "\\n"
  else if c = Char.ofNat 12 then "\\f"
  else if c = Char.ofNat 13 then "\\r"
  else if c.toNat < 32 then
    "\\u00" ++ String.mk [hexDigit (c.toNat / 16), hexDigit (c.toNat % 16)]
  else String.mk [c]

/-- A JSON string literal for `s`. -/
def quoteStr (s : String) : String :=
  "\"" ++ String.join (s.toList.map escChar) ++ "\""

mutual

/-- The JS `JSON.stringify(v, null, 2)` at nesting indent `ind`. -/
def stringifyVal (ind : String) : Json → String
  | .null => "null"
  | .bool true => "true"
  | .bool false => "false"
  | .num n => toString n
  | .str s => quoteStr s
  | .arr [] => "[]"
  | .arr (x :: xs) =>
    "[\n" ++ String.intercalate ",\n"
      ((stringifyItems (ind ++ "  ") (x :: xs)).map (fun s => ind ++ "  " ++ s))
      ++ "\n" ++ ind ++ "]"
  | .obj [] => "\x7b\x7d"
  | .obj (f :: fs) =>
    "\x7b\n" ++ String.intercalate ",\n"
      ((stringifyFields (ind ++ "  ") (f :: fs)).map (fun s => ind ++ "  " ++ s))
      ++ "\n" ++ ind ++ "\x7d"

/-- Rendered array items. -/
def stringifyItems (ind : String) : List Json → List String
  | [] => []
  | x :: xs => stringifyVal ind x :: stringifyItems ind xs

/-- Rendered object entries (`"key": value`). -/
def stringifyFields (ind : String) : List (String × Json) → List String
  | [] => []
  | (k, v) :: fs => (quoteStr k ++ ": " ++ stringifyVal ind v) :: stringifyFields ind fs

end

/-- The JS `JSON.stringify(v, null, 2)`. -/
def stringify2 (j : Json) : String := stringifyVal "" j

/-! ## Message assembler (the `run` event loop) -/

/-- Value of `event.input ?? {}` (and the other `?? {}` defaults): the
JS nullish coalescing replaces both an absent field and JSON `null`. -/
def jsNullishObj : Option Json → Json
  | none => Json.obj []
  | some .null => Json.obj []
  | some v => v

/-- The `ToolState` record of `App.tsx`. -/
structure ToolState where
  id : String
  name : String
  args : Json
  result : Option Json

/-- One entry of `final.tool_calls`. -/
structure ToolCall where
  id : String
  name : String
  input : Option Json
  output : Option Json

/-- The `StreamEvent` tagged union of `App.tsx`.  Optional fields are
`Option`-valued; `none` is an absent (JS `undefined`) field. -/
inductive StreamEvent where
  | token (content : String) : StreamEvent
  | tool_start (id : String) (name : String) (input : Option Json) : StreamEvent
  | tool_end (id : String) (name : String) (output : Option Json) : StreamEvent
  | final (content : Option String) (tool_calls : Option (List ToolCall))
      (response_id : Option String) : StreamEvent

/-- Run-local assembler state of the `run` loop.  `toolMap` is the JS
`Map` keyed by tool id (only `get`/`has`/`set` are used on it, so a
lookup function is a faithful model). -/
structure AsmState where
  assistantText : String
  toolMap : String → Option ToolState
  toolOrder : List String
  finalResponseId : String

/-- Fresh state created at the start of each run. -/
def AsmState.start : AsmState := ⟨"", fun _ => none, [], ""⟩

/-- The JS `Map.prototype.set`. -/
def mapSet (m : String → Option ToolState) (k : String) (v : ToolState) :
    String → Option ToolState :=
  fun k2 => if k2 = k then some v else m k2

/-- Handling of `final.content` by the `run` loop: `if (event.content)`
is a JS truthiness test, so a missing and an empty string both leave
the accumulated text, while a non-empty string overwrites it. -/
def applyFinalText (st : AsmState) (content : Option String) : AsmState :=
  match content with
  | some c => if c = "" then st else { st with assistantText := c }
  | none => st

/-- Handling of `final.response_id` by the `run` loop (again a JS
truthiness test). -/
def applyFinalResp (st : AsmState) (response_id : Option String) : AsmState :=
  match response_id with
  | some r => if r = "" then st else { st with finalResponseId := r }
  | none => st

/-- Processing of one `final.tool_calls` entry by the `run` loop. -/
def applyCall (st : AsmState) (call : ToolCall) : AsmState :=
  { st with
    toolMap := mapSet st.toolMap call.id
      ⟨call.id, call.name, jsNullishObj call.input, call.output⟩,
    toolOrder :=
      if call.id ∈ st.toolOrder then st.toolOrder else st.toolOrder ++ [call.id] }

/-- One iteration of the `for await (const event of streamChat(...))`
fold, mirroring the four `if (event.type === ...)` branches. -/
def applyEvent (st : AsmState) (e : StreamEvent) : AsmState :=
  match e with
  | .token content => { st with assistantText := st.assistantText ++ content }
  | .tool_start id name input =>
    { st with
      toolOrder :=
        if (st.toolMap id).isSome then st.toolOrder else st.toolOrder ++ [id],
      toolMap := mapSet st.toolMap id ⟨id, name, jsNullishObj input, none⟩ }
  | .tool_end id name output =>
    { st with
      toolMap := mapSet st.toolMap id
        ⟨id, name,
         (match st.toolMap id with
          | some t => (match t.args with | .null => Json.obj [] | a => a)
          | none => Json.obj []),
         output⟩,
      toolOrder :=
        if id ∈ st.toolOrder then st.toolOrder else st.toolOrder ++ [id] }
  | .final content tool_calls response_id =>
    (tool_calls.getD []).foldl applyCall (applyFinalResp (applyFinalText st content) response_id)

/-! ## Snapshot derivation (`buildAssistantParts`) -/

/-- Renderable message parts (`ThreadAssistantMessagePart` as used by
the adapter: tool-call parts and a text part). -/
inductive Part where
  | toolCall (toolCallId : String) (toolName : String) (args : Json)
      (argsText : String) (result : Option Json) : Part
  | text (t : String) : Part

/-- Whitespace predicate of the JS `trim()` on `Char`. -/
def isJsWsChar (c : Char) : Bool := isJsWs c.toNat

/-- The JS `trim()` on a Lean `String`. -/
def jsTrimS (s : String) : String :=
  String.mk ((s.toList.dropWhile isJsWsChar).reverse.dropWhile isJsWsChar).reverse

/-- Tool-call part built for one `ToolState` by `buildAssistantParts`:
the `args` field keeps the raw args only when `typeof` is `'object'`
and not `null`; `argsText` is the raw args when they are a string and
`JSON.stringify(args ?? {}, null, 2)` otherwise; `result` is spread in
exactly when it is not `undefined`. -/
def toolPart (tool : ToolState) : Part :=
  Part.toolCall tool.id tool.name
    (match tool.args with
     | .obj _ => tool.args
     | .arr _ => tool.args
     | _ => Json.obj [])
    (match tool.args with
     | .str s => s
     | .null => stringify2 (Json.obj [])
     | a => stringify2 a)
    tool.result

/-- The `buildAssistantParts` function of `App.tsx`. -/
def buildAssistantParts (text : String) (toolStates : List ToolState) : List Part :=
  if 0 < (jsTrimS text).length ∨ (toolStates.map toolPart).length = 0 then
    toolStates.map toolPart ++ [Part.text text]
  else toolStates.map toolPart

/-- The `isRunning` test of the `ToolPart` component: a tool renders as
running exactly when its part carries no `result`. -/
def partRunning : Part → Bool
  | .toolCall _ _ _ _ result => result.isNone
  | .text _ => false

/-- Ordered tool states as computed before each yield:
`toolOrder.map((id) => toolMap.get(id)).filter(Boolean)`. -/
def orderedTools (st : AsmState) : List ToolState :=
  st.toolOrder.filterMap st.toolMap

/-- Snapshot yielded after an applied event. -/
def snapshot (st : AsmState) : List Part :=
  buildAssistantParts st.assistantText (orderedTools st)

/-- Assembler state after a list of events, starting from fresh state. -/
def applyEvents (evs : List StreamEvent) : AsmState :=
  evs.foldl applyEvent AsmState.start

/-- The yields of the `run` loop from a given state: one snapshot per
consumed event, in arrival order. -/
def runEvents (st : AsmState) : List StreamEvent → List (List Part)
  | [] => []
  | e :: es => snapshot (applyEvent st e) :: runEvents (applyEvent st e) es

/-! ## Run orchestrator (prompt extraction and pre-stream control flow) -/

/-- Content part of a thread message as the adapter sees it: the
extraction only distinguishes parts with `type === 'text'` (carrying a
`text` field) from every other part kind. -/
inductive MsgPart where
  | text (t : String) : MsgPart
  | nonText (kind : String) : MsgPart

/-- Thread message (role plus content parts). -/
structure Message where
  role : String
  content : List MsgPart

/-- The `extractUserPrompt` function of `App.tsx`: walk the messages
from the last one backwards, take the first one whose role is `user`,
keep its `text`-typed parts, join their texts with `'\n'` and trim. -/
def extractUserPrompt (messages : List Message) : String :=
  match messages.reverse.find? (fun m => m.role = "user") with
  | some m =>
    jsTrimS (String.intercalate "\n"
      (m.content.filterMap (fun p => match p with | .text t => some t | .nonText _ => none)))
  | none => ""

/-- Observable outcome of one `run` invocation: the yielded snapshots
and whether the token provider and the network were consulted. -/
structure RunTrace where
  yields : List (List Part)
  tokenRequested : Bool
  requestIssued : Bool
  failed : Bool

/-- Control-flow skeleton of the `run` adapter method: an empty
extracted prompt short-circuits with the single "ask for input" yield
before the token is requested; otherwise a falsy token throws, a
non-ok response throws, and an ok response is streamed through
`runEvents`. -/
def runModel (messages : List Message) (token : Option String) (ok : Bool)
    (events : List StreamEvent) : RunTrace :=
  if extractUserPrompt messages = "" then
    ⟨[[Part.text "Please enter a message."]], false, false, false⟩
  else if token.getD "" = "" then ⟨[], true, false, true⟩
  else if ok then ⟨runEvents AsmState.start events, true, true, false⟩
  else ⟨[], true, true, true⟩

/-! ## Tool-order bookkeeping lemmas (claim C1) -/

/-- Append an id to an order list unless it is already present. -/
def pushRef (order : List String) (id : String) : List String :=
  if id ∈ order then order else order ++ [id]

/-- Ids referenced by one event, in reference order. -/
def refsOf : StreamEvent → List String
  | .token _ => []
  | .tool_start id _ _ => [id]
  | .tool_end id _ _ => [id]
  | .final _ tool_calls _ => (tool_calls.getD []).map (fun c => c.id)

theorem mem_pushRef {a id : String} (l : List String) :
    a ∈ pushRef l id ↔ a ∈ l ∨ a = id := by
  unfold pushRef
  by_cases h : id ∈ l
  · simp only [h, if_true]
    constructor
    · exact Or.inl
    · rintro (h2 | rfl)
      · exact h2
      · exact h
  · simp [h]

theorem nodup_pushRef {l : List String} (id : String) (h : l.Nodup) :
    (pushRef l id).Nodup := by
  unfold pushRef
  by_cases hm : id ∈ l
  · simpa [hm]
  · simp [hm, List.nodup_append, h]

theorem isSome_mapSet (m : String → Option ToolState) (k : String) (v : ToolState)
    (k2 : String) : (mapSet m k v k2).isSome = (k2 = k ∨ (m k2).isSome : Prop) := by
  unfold mapSet
  by_cases h : k2 = k <;> simp [h]

theorem applyFinalText_toolOrder (st : AsmState) (c : Option String) :
    (applyFinalText st c).toolOrder = st.toolOrder := by
  cases c with
  | none => rfl
  | some s => by_cases h : s = "" <;> simp [applyFinalText, h]

theorem applyFinalText_toolMap (st : AsmState) (c : Option String) :
    (applyFinalText st c).toolMap = st.toolMap := by
  cases c with
  | none => rfl
  | some s => by_cases h : s = "" <;> simp [applyFinalText, h]

theorem applyFinalResp_toolOrder (st : AsmState) (r : Option String) :
    (applyFinalResp st r).toolOrder = st.toolOrder := by
  cases r with
  | none => rfl
  | some s => by_cases h : s = "" <;> simp [applyFinalResp, h]

theorem applyFinalResp_toolMap (st : AsmState) (r : Option String) :
    (applyFinalResp st r).toolMap = st.toolMap := by
  cases r with
  | none => rfl
  | some s => by_cases h : s = "" <;> simp [applyFinalResp, h]

theorem calls_inv (calls : List ToolCall) (st : AsmState)
    (h1 : st.toolOrder.Nodup)
    (h2 : ∀ id, id ∈ st.toolOrder ↔ (st.toolMap id).isSome) :
    (calls.foldl applyCall st).toolOrder.Nodup
    ∧ (∀ id, id ∈ (calls.foldl applyCall st).toolOrder
        ↔ ((calls.foldl applyCall st).toolMap id).isSome)
    ∧ (calls.foldl applyCall st).toolOrder
        = (calls.map (fun c => c.id)).foldl pushRef st.toolOrder := by
  induction calls generalizing st with
  | nil => exact ⟨h1, h2, rfl⟩
  | cons c cs ih =>
    have hstep1 : (applyCall st c).toolOrder = pushRef st.toolOrder c.id := rfl
    have hstep2 : ∀ id, id ∈ (applyCall st c).toolOrder
        ↔ ((applyCall st c).toolMap id).isSome := by
      intro id
      rw [hstep1, mem_pushRef]
      show _ ↔ (mapSet st.toolMap c.id _ id).isSome = true
      rw [isSome_mapSet]
      rw [h2 id]
      constructor
      · rintro (hm | rfl)
        · exact Or.inr hm
        · exact Or.inl rfl
      · rintro (rfl | hm)
        · exact Or.inr rfl
        · exact Or.inl hm
    have hstep0 : (applyCall st c).toolOrder.Nodup := by
      rw [hstep1]; exact nodup_pushRef c.id h1
    have := ih (applyCall st c) hstep0 hstep2
    refine ⟨this.1, this.2.1, ?_⟩
    simp only [List.foldl_cons, List.map_cons]
    rw [this.2.2, hstep1]

theorem step_inv (st : AsmState) (e : StreamEvent)
    (h1 : st.toolOrder.Nodup)
    (h2 : ∀ id, id ∈ st.toolOrder ↔ (st.toolMap id).isSome) :
    (applyEvent st e).toolOrder.Nodup
    ∧ (∀ id, id ∈ (applyEvent st e).toolOrder ↔ ((applyEvent st e).toolMap id).isSome)
    ∧ (applyEvent st e).toolOrder = (refsOf e).foldl pushRef st.toolOrder := by
  cases e with
  | token content => exact ⟨h1, h2, rfl⟩
  | tool_start id name input =>
    have horder : (applyEvent st (.tool_start id name input)).toolOrder
        = pushRef st.toolOrder id := by
      show (if (st.toolMap id).isSome then st.toolOrder else st.toolOrder ++ [id]) = _
      unfold pushRef
      by_cases hm : id ∈ st.toolOrder
      · have : (st.toolMap id).isSome := (h2 id).mp hm
        simp [this, hm]
      · have : ¬ (st.toolMap id).isSome := fun hs => hm ((h2 id).mpr hs)
        simp [this, hm]
    refine ⟨?_, ?_, ?_⟩
    · rw [horder]; exact nodup_pushRef id h1
    · intro id2
      rw [horder, mem_pushRef]
      show _ ↔ (mapSet st.toolMap id _ id2).isSome = true
      rw [isSome_mapSet, h2 id2]
      constructor
      · rintro (hm | rfl)
        · exact Or.inr hm
        · exact Or.inl rfl
      · rintro (rfl | hm)
        · exact Or.inr rfl
        · exact Or.inl hm
    · rw [horder]; rfl
  | tool_end id name output =>
    have horder : (applyEvent st (.tool_end id name output)).toolOrder
        = pushRef st.toolOrder id := rfl
    refine ⟨?_, ?_, ?_⟩
    · rw [horder]; exact nodup_pushRef id h1
    · intro id2
      rw [horder, mem_pushRef]
      show _ ↔ (mapSet st.toolMap id _ id2).isSome = true
      rw [isSome_mapSet, h2 id2]
      constructor
      · rintro (hm | rfl)
        · exact Or.inr hm
        · exact Or.inl rfl
      · rintro (rfl | hm)
        · exact Or.inr rfl
        · exact Or.inl hm
    · rw [horder]; rfl
  | final content tool_calls response_id =>
    have hpreO : (applyFinalResp (applyFinalText st content) response_id).toolOrder
        = st.toolOrder := by
      rw [applyFinalResp_toolOrder, applyFinalText_toolOrder]
    have hpreM : (applyFinalResp (applyFinalText st content) response_id).toolMap
        = st.toolMap := by
      rw [applyFinalResp_toolMap, applyFinalText_toolMap]
    have h1p : (applyFinalResp (applyFinalText st content) response_id).toolOrder.Nodup := by
      rw [hpreO]; exact h1
    have h2p : ∀ id, id ∈ (applyFinalResp (applyFinalText st content) response_id).toolOrder
        ↔ ((applyFinalResp (applyFinalText st content) response_id).toolMap id).isSome := by
      intro id; rw [hpreO, hpreM]; exact h2 id
    have := calls_inv (tool_calls.getD []) _ h1p h2p
    exact ⟨this.1, this.2.1, by rw [show (applyEvent st (.final content tool_calls response_id)) = (tool_calls.getD []).foldl applyCall (applyFinalResp (applyFinalText st content) response_id) from rfl, this.2.2, hpreO]; rfl⟩

theorem run_inv (evs : List StreamEvent) (st : AsmState)
    (h1 : st.toolOrder.Nodup)
    (h2 : ∀ id, id ∈ st.toolOrder ↔ (st.toolMap id).isSome) :
    (evs.foldl applyEvent st).toolOrder.Nodup
    ∧ (∀ id, id ∈ (evs.foldl applyEvent st).toolOrder
        ↔ ((evs.foldl applyEvent st).toolMap id).isSome)
    ∧ (evs.foldl applyEvent st).toolOrder
        = ((evs.map refsOf).flatten).foldl pushRef st.toolOrder := by
  induction evs generalizing st with
  | nil => exact ⟨h1, h2, rfl⟩
  | cons e es ih =>
    have hstep := step_inv st e h1 h2
    have := ih (applyEvent st e) hstep.1 hstep.2.1
    refine ⟨this.1, this.2.1, ?_⟩
    show ((e :: es).foldl applyEvent st).toolOrder = _
    rw [List.foldl_cons, this.2.2, List.map_cons, List.flatten_cons, List.foldl_append,
      hstep.2.2]

/-- Claim C1.  For every sequence of consumed events, after each
assembler step `toolOrder` has no duplicate ids, its membership
coincides with the key set of `toolMap`, and it equals the ids in order
of first reference by any `tool_start`, `tool_end` or
`final.tool_calls` entry. -/
theorem assembler_toolOrder_invariant (evs : List StreamEvent) :
    (applyEvents evs).toolOrder.Nodup
    ∧ (∀ id, id ∈ (applyEvents evs).toolOrder ↔ ((applyEvents evs).toolMap id).isSome)
    ∧ (applyEvents evs).toolOrder = ((evs.map refsOf).flatten).foldl pushRef [] := by
  have := run_inv evs AsmState.start List.nodup_nil (by intro id; simp [AsmState.start])
  exact ⟨this.1, this.2.1, this.2.2⟩

/-! ## Final text handling (claim C3) -/

/-- Claim C3.  A `final` event with non-empty `content` overwrites
`assistantText` wholesale; a `final` event without `content` keeps the
token-accumulated text; and the scenario `token "Hel"`, `token "lo"`,
content-less `final` yields a last snapshot that is the single text
part `"Hello"`. -/
theorem final_content_overwrite (st : AsmState) (c : String) (calls : Option (List ToolCall))
    (rid : Option String) (h : c ≠ "") :
    (applyEvent st (.final (some c) calls rid)).assistantText = c
    ∧ (applyEvent st (.final none calls rid)).assistantText = st.assistantText
    ∧ runEvents AsmState.start [.token "Hel", .token "lo", .final none none none]
        = [[Part.text "Hel"], [Part.text "Hello"], [Part.text "Hello"]] := by
  refine ⟨?_, ?_, rfl⟩
  · show ((calls.getD []).foldl applyCall
      (applyFinalResp (applyFinalText st (some c)) rid)).assistantText = c
    have htext : (applyFinalText st (some c)).assistantText = c := by
      simp [applyFinalText, h]
    have hresp : ∀ st2 : AsmState, (applyFinalResp st2 rid).assistantText = st2.assistantText := by
      intro st2
      cases rid with
      | none => rfl
      | some r => by_cases hr : r = "" <;> simp [applyFinalResp, hr]
    have hcalls : ∀ (cs : List ToolCall) (st2 : AsmState),
        (cs.foldl applyCall st2).assistantText = st2.assistantText := by
      intro cs
      induction cs with
      | nil => intro st2; rfl
      | cons x xs ih => intro st2; rw [List.foldl_cons, ih]; rfl
    rw [hcalls, hresp, htext]
  · show ((calls.getD []).foldl applyCall
      (applyFinalResp (applyFinalText st none) rid)).assistantText = st.assistantText
    have hresp : ∀ st2 : AsmState, (applyFinalResp st2 rid).assistantText = st2.assistantText := by
      intro st2
      cases rid with
      | none => rfl
      | some r => by_cases hr : r = "" <;> simp [applyFinalResp, hr]
    have hcalls : ∀ (cs : List ToolCall) (st2 : AsmState),
        (cs.foldl applyCall st2).assistantText = st2.assistantText := by
      intro cs
      induction cs with
      | nil => intro st2; rfl
      | cons x xs ih => intro st2; rw [List.foldl_cons, ih]; rfl
    rw [hcalls, hresp]
    rfl

/-- Witness for claim C3 at a concrete non-empty final content. -/
theorem final_content_overwrite_witness :
    ("Final text" ≠ "")
    ∧ ((applyEvent AsmState.start (.final (some "Final text") none none)).assistantText
        = "Final text"
      ∧ (applyEvent AsmState.start (.final none none none)).assistantText
        = AsmState.start.assistantText
      ∧ runEvents AsmState.start [.token "Hel", .token "lo", .final none none none]
          = [[Part.text "Hel"], [Part.text "Hello"], [Part.text "Hello"]]) :=
  ⟨by decide, final_content_overwrite AsmState.start "Final text" none none (by decide)⟩

/-! ## Payload filter (claim C4) -/

/-- Counterexample to claim C4 as stated: a payload that parses to an
object whose `type` value is none of the four recognized variants is
still emitted as an event, because the guard only tests for the
presence of a `type` key, never its value. -/
theorem payload_filter_counterexample :
    emittedEvent (some (Json.obj [("type", Json.str "bogus")]))
      = some (Json.obj [("type", Json.str "bogus")]) := rfl

/-- Claim C4 as amended.  The filter emits an event exactly when the
payload parses as JSON to an object (not `null`, not an array, not a
primitive) that has a `type` key — whatever the `type` value is; every
other parse outcome (a parse failure, which `safeJsonParse` turns into
the raw string, or a non-object, or an object without `type`) produces
zero events and no error. -/
theorem payload_filter_characterization (parsed : Option Json) :
    (emittedEvent parsed).isSome
      ↔ ∃ fields, parsed = some (Json.obj fields)
          ∧ fields.any (fun f => f.1 = "type") = true := by
  cases parsed with
  | none => simp [emittedEvent]
  | some v =>
    cases v with
    | null => simp [emittedEvent, jsTruthy]
    | bool b => simp [emittedEvent, jsTypeof]
    | num n => simp [emittedEvent, jsTypeof]
    | str s => simp [emittedEvent, jsTypeof]
    | arr xs => simp [emittedEvent, jsTruthy, jsTypeof, hasKey]
    | obj fields =>
      constructor
      · intro hs
        by_cases hany : fields.any (fun f => f.1 = "type") = true
        · exact ⟨fields, rfl, hany⟩
        · rw [show emittedEvent (some (Json.obj fields)) = none from by
            simp [emittedEvent, jsTruthy, jsTypeof, hasKey, hany]] at hs
          exact absurd hs (by simp)
      · rintro ⟨fields2, heq, hany⟩
        injection heq with heq2
        injection heq2 with heq3
        subst heq3
        simp [emittedEvent, jsTruthy, jsTypeof, hasKey, hany]

/-! ## tool_start overwriting (claim C5) -/

/-- Counterexample to claim C5 as stated: a `tool_end` for id `A` sets
a result, and a following `tool_start` for `A` replaces the whole map
entry, so the previously recorded result is gone (the claim said it
must be left intact). -/
theorem tool_start_clobbers_counterexample :
    ((applyEvents [.tool_end "A" "t" (some (Json.str "out"))]).toolMap "A")
      = some ⟨"A", "t", Json.obj [], some (Json.str "out")⟩
    ∧ ((applyEvents [.tool_end "A" "t" (some (Json.str "out")),
          .tool_start "A" "t" none]).toolMap "A")
      = some ⟨"A", "t", Json.obj [], none⟩ := ⟨rfl, rfl⟩

/-- Claim C5 as amended.  A `tool_start` for id `id` replaces the map
entry wholesale: `args` becomes `input ?? {}` and the entry carries no
`result` (the tool reads as running again), regardless of any result an
earlier `tool_end` had recorded. -/
theorem tool_start_replaces_entry (st : AsmState) (id name : String) (input : Option Json) :
    (applyEvent st (.tool_start id name input)).toolMap id
      = some ⟨id, name, jsNullishObj input, none⟩ := by
  show mapSet st.toolMap id _ id = _
  simp [mapSet]

/-! ## final.tool_calls result handling (claim C6) -/

/-- Counterexample to claim C6 as stated: a `final` whose `tool_calls`
entry has no `output` leaves the entry with `result` undefined, the
built part carries no result, and the rendered tool reads as running —
not completed. -/
theorem final_call_no_output_counterexample :
    snapshot (applyEvents [.final none (some [⟨"A", "t", none, none⟩]) none])
      = [Part.toolCall "A" "t" (Json.obj []) "\x7b\x7d" none]
    ∧ (snapshot (applyEvents [.final none (some [⟨"A", "t", none, none⟩]) none])).all
        partRunning = true := ⟨rfl, rfl⟩

/-- Claim C6 as amended.  A `final.tool_calls` entry stores
`result := output` exactly as the `tool_end` path does: with absent
`output` both leave the entry's `result` undefined, and a built tool
part carries a result (rendering as completed) precisely when the
stored result is present. -/
theorem final_call_result_mirrors_output (st : AsmState) (id name : String)
    (out : Option Json) (h : st.toolMap id = none) :
    (applyEvent st (.final none (some [⟨id, name, none, out⟩]) none)).toolMap id
      = some ⟨id, name, Json.obj [], out⟩
    ∧ (applyEvent st (.tool_end id name out)).toolMap id = some ⟨id, name, Json.obj [], out⟩
    ∧ ∀ args, partRunning (toolPart ⟨id, name, args, out⟩) = out.isNone := by
  refine ⟨?_, ?_, fun args => rfl⟩
  · show (applyCall (applyFinalResp (applyFinalText st none) none) ⟨id, name, none, out⟩).toolMap
        id = _
    show mapSet _ id _ id = _
    simp [mapSet, jsNullishObj]
  · show mapSet st.toolMap id _ id = _
    rw [h]
    simp [mapSet]

/-- Witness for the amended claim C6 at a concrete fresh id. -/
theorem final_call_result_mirrors_output_witness :
    (AsmState.start.toolMap "A" = none)
    ∧ ((applyEvent AsmState.start (.final none (some [⟨"A", "t", none, none⟩]) none)).toolMap "A"
        = some ⟨"A", "t", Json.obj [], none⟩
      ∧ (applyEvent AsmState.start (.tool_end "A" "t" none)).toolMap "A"
        = some ⟨"A", "t", Json.obj [], none⟩
      ∧ ∀ args, partRunning (toolPart ⟨"A", "t", args, none⟩) = (none : Option Json).isNone) :=
  ⟨rfl, final_call_result_mirrors_output AsmState.start "A" "t" none rfl⟩

/-! ## Snapshot structure (claim C7) -/

/-- Counterexample to claim C7 as stated: with a whitespace-only
`assistantText` (which is non-empty) and one tool part, the snapshot
omits the trailing text part, because the code tests
`text.trim().length > 0`, not emptiness of `assistantText`. -/
theorem snapshot_text_part_counterexample :
    (applyEvents [.tool_start "A" "t" none, .token " "]).assistantText = " "
    ∧ snapshot (applyEvents [.tool_start "A" "t" none, .token " "])
      = [Part.toolCall "A" "t" (Json.obj []) "\x7b\x7d" none] := ⟨rfl, rfl⟩

theorem jsTrimS_empty_of_len {s : String} (h : (jsTrimS s).length = 0) : jsTrimS s = "" := by
  unfold jsTrimS at h ⊢
  cases hl : ((s.toList.dropWhile isJsWsChar).reverse.dropWhile isJsWsChar).reverse with
  | nil => rfl
  | cons c cs =>
    rw [hl] at h
    have : (String.mk (c :: cs)).length = cs.length + 1 := rfl
    omega

/-- Claim C7 as amended.  Every snapshot is the tool parts in
`toolOrder` order followed by at most one trailing text part, and the
text part is omitted exactly when `assistantText` trims to the empty
string and at least one tool part exists. -/
theorem snapshot_structure (st : AsmState) :
    ∃ tail, snapshot st = (orderedTools st).map toolPart ++ tail
    ∧ (tail = [Part.text st.assistantText] ∨ tail = [])
    ∧ (tail = [] ↔ (jsTrimS st.assistantText = "" ∧ orderedTools st ≠ [])) := by
  unfold snapshot buildAssistantParts
  by_cases h : 0 < (jsTrimS st.assistantText).length ∨ ((orderedTools st).map toolPart).length = 0
  · refine ⟨[Part.text st.assistantText], by rw [if_pos h], Or.inl rfl, ?_, ?_⟩
    · intro hcontra
      exact absurd hcontra (by simp)
    · rintro ⟨he, hne⟩
      exfalso
      rcases h with h | h
      · rw [he] at h
        exact absurd h (by simp)
      · rw [List.length_eq_zero, List.map_eq_nil_iff] at h
        exact absurd h hne
  · refine ⟨[], ?_, Or.inr rfl, ?_⟩
    · rw [if_neg h]
      simp
    · push_neg at h
      have h1 : jsTrimS st.assistantText = "" :=
        jsTrimS_empty_of_len (Nat.le_zero.mp h.1)
      have h2 : orderedTools st ≠ [] := by
        intro hc
        apply h.2
        rw [hc]
        rfl
      exact ⟨fun _ => ⟨h1, h2⟩, fun _ => rfl⟩

/-! ## One yield per event (claim C8) -/

theorem runEvents_range (st : AsmState) (evs : List StreamEvent) :
    runEvents st evs
      = (List.range evs.length).map
          (fun i => snapshot ((evs.take (i + 1)).foldl applyEvent st)) := by
  induction evs generalizing st with
  | nil => rfl
  | cons e es ih =>
    show snapshot (applyEvent st e) :: runEvents (applyEvent st e) es = _
    rw [List.length_cons, List.range_succ_eq_map, List.map_cons, List.map_map, ih]
    congr 1

/-- Claim C8.  The run loop yields exactly one snapshot per parsed
event, in arrival order with no coalescing: the yield list has one
entry per event and its `i`-th entry is the snapshot of the state after
the first `i+1` events. -/
theorem run_one_yield_per_event (evs : List StreamEvent) :
    runEvents AsmState.start evs
      = (List.range evs.length).map
          (fun i => snapshot ((evs.take (i + 1)).foldl applyEvent AsmState.start)) :=
  runEvents_range AsmState.start evs

/-! ## Empty-prompt short circuit (claim C9) -/

/-- Claim C9.  When the extracted user prompt is empty, the run yields
exactly one "ask for input" snapshot and terminates without requesting
a token and without issuing a network request. -/
theorem empty_prompt_short_circuit (messages : List Message) (token : Option String)
    (ok : Bool) (events : List StreamEvent) (h : extractUserPrompt messages = "") :
    runModel messages token ok events
      = ⟨[[Part.text "Please enter a message."]], false, false, false⟩ := by
  simp [runModel, h]

/-- Witness for claim C9: a single user message whose text is
whitespace-only extracts to the empty prompt. -/
theorem empty_prompt_short_circuit_witness :
    (extractUserPrompt [⟨"user", [.text "  "]⟩] = "")
    ∧ runModel [⟨"user", [.text "  "]⟩] (some "tok") true []
      = ⟨[[Part.text "Please enter a message."]], false, false, false⟩ :=
  ⟨rfl, empty_prompt_short_circuit [⟨"user", [.text "  "]⟩] (some "tok") true [] rfl⟩

/-! ## Trailing buffer at stream end (claim C10) -/

theorem jsTrimL_append_ws {c : Nat} (x : List Nat) (hc : isJsWs c = true) :
    jsTrimL (x ++ [c]) = jsTrimL x := by
  unfold jsTrimL
  rw [List.dropWhile_append]
  by_cases he : (x.dropWhile isJsWs).isEmpty
  · rw [if_pos he]
    rw [List.isEmpty_iff] at he
    rw [he]
    simp [List.dropWhile, hc]
  · rw [if_neg he]
    rw [List.reverse_append]
    simp [List.dropWhile, hc]

theorem framePayloads_snoc_nl (x : List Nat) :
    framePayloads (x ++ [10]) = framePayloads x := by
  unfold framePayloads
  rw [jsTrimL_append_ws x (by decide)]

theorem splitNN_term (buf : List Nat) (h : splitNN buf = none) :
    (∃ b2, buf = b2 ++ [10] ∧ splitNN (buf ++ [10, 10]) = some (b2, [10]))
    ∨ splitNN (buf ++ [10, 10]) = some (buf, []) := by
  induction buf with
  | nil => right; rfl
  | cons c rest ih =>
    match rest with
    | [] =>
      by_cases hc : c = 10
      · subst hc
        exact Or.inl ⟨[], rfl, rfl⟩
      · right
        show splitNN (c :: 10 :: [10]) = _
        rw [splitNN]
        simp [splitNN, hc]
    | c2 :: rest2 =>
      rw [splitNN] at h
      by_cases hc : c = 10 ∧ c2 = 10
      · rw [if_pos hc] at h
        cases h
      · rw [if_neg hc] at h
        have h2 : splitNN (c2 :: rest2) = none := by
          cases h2 : splitNN (c2 :: rest2) with
          | none => rfl
          | some p => rw [h2] at h; cases h
        rw [List.cons_append, List.cons_append, splitNN]
        rw [show c2 :: (rest2 ++ [10, 10]) = (c2 :: rest2) ++ [10, 10] from rfl]
        rw [if_neg hc]
        rcases ih h2 with ⟨b2, hb, hs⟩ | hs
        · rw [hs]
          exact Or.inl ⟨c :: b2, by rw [hb]; rfl, rfl⟩
        · rw [hs]
          exact Or.inr rfl

theorem extract_term (buf : List Nat) (h : splitNN buf = none) :
    ((extractAll (buf ++ [10, 10])).1.map framePayloads).flatten = framePayloads buf := by
  rcases splitNN_term buf h with ⟨b2, hb, hs⟩ | hs
  · rw [extractAll_some hs, extractAll_none (rfl : splitNN [10] = none)]
    simp only [List.map_cons, List.map_nil, List.flatten_cons, List.flatten_nil,
      List.append_nil]
    rw [hb, framePayloads_snoc_nl]
  · rw [extractAll_some hs, extractAll_none (rfl : splitNN ([] : List Nat) = none)]
    simp

theorem sse_inv (cs : List (List Nat)) (st : SSESt) (h : splitNN st.buffer = none) :
    splitNN (sseStateAfter st cs).buffer = none := by
  induction cs generalizing st with
  | nil => exact h
  | cons c cs ih => exact ih (stepChunk st c).1 (stepChunk_buffer_rest st c)

theorem feedBytes_nlnl (d : DecSt) (h : d.bytesNeeded = 0) :
    feedBytes d [10, 10] = (DecSt.start, [10, 10]) := by
  have h1 : feedByte d 10 = (DecSt.start, [10]) := by
    unfold feedByte
    rw [h]
    simp [utf8Begin]
  have h2 : feedByte DecSt.start 10 = (DecSt.start, [10]) := rfl
  show List.foldl _ (d, []) [10, 10] = _
  rw [List.foldl_cons, List.foldl_cons, List.foldl_nil]
  rw [show ((feedByte d 10).1, ([] : List Nat) ++ (feedByte d 10).2)
      = (DecSt.start, [10]) from by rw [h1]; rfl]
  rw [show ((feedByte DecSt.start 10).1, [10] ++ (feedByte DecSt.start 10).2)
      = (DecSt.start, [10, 10]) from by rw [h2]; rfl]

theorem stripBom_nlnl (seen : Bool) : (stripBom seen [10, 10]).2 = [10, 10] := by
  cases seen <;> simp [stripBom]

/-- Claim C10.  When the byte source is exhausted while the decoder
buffer still holds text not terminated by `"\n\n"`, that trailing text
is silently discarded: the run's payload output is exactly what the
terminated frames produced, and the discarded buffer would have
produced `framePayloads` of itself (for example complete `"data:"`
lines) had the terminator arrived. -/
theorem stream_trailing_buffer_discarded (chunks : List (List Nat))
    (h : (sseStateAfter SSESt.start chunks).dec.bytesNeeded = 0) :
    streamPayloads (chunks ++ [[10, 10]])
      = streamPayloads chunks
        ++ framePayloads (sseStateAfter SSESt.start chunks).buffer := by
  unfold streamPayloads
  rw [payloadsFrom_append]
  congr 1
  show (stepChunk (sseStateAfter SSESt.start chunks) [10, 10]).2 ++ [] = _
  rw [List.append_nil]
  show ((extractAll ((sseStateAfter SSESt.start chunks).buffer
      ++ (stripBom (sseStateAfter SSESt.start chunks).bomSeen
            (feedBytes (sseStateAfter SSESt.start chunks).dec [10, 10]).2).2)).1.map
        framePayloads).flatten = _
  rw [feedBytes_nlnl _ h]
  rw [show (stripBom (sseStateAfter SSESt.start chunks).bomSeen
      ((DecSt.start, [10, 10]) : DecSt × List Nat).2).2 = [10, 10] from
    stripBom_nlnl _]
  exact extract_term _ (sse_inv chunks SSESt.start rfl)

/-- Witness for claim C10: a single chunk holding a complete
`"data: hi"` line with no terminator yields no payload at all, while
terminating the stream would have yielded the payload `"hi"`. -/
theorem stream_trailing_buffer_discarded_witness :
    ((sseStateAfter SSESt.start [[100, 97, 116, 97, 58, 32, 104, 105]]).dec.bytesNeeded = 0)
    ∧ streamPayloads ([[100, 97, 116, 97, 58, 32, 104, 105]] ++ [[10, 10]])
      = streamPayloads [[100, 97, 116, 97, 58, 32, 104, 105]]
        ++ framePayloads (sseStateAfter SSESt.start
            [[100, 97, 116, 97, 58, 32, 104, 105]]).buffer
    ∧ streamPayloads [[100, 97, 116, 97, 58, 32, 104, 105]] = []
    ∧ framePayloads (sseStateAfter SSESt.start
        [[100, 97, 116, 97, 58, 32, 104, 105]]).buffer = [[104, 105]] :=
  ⟨by decide,
   stream_trailing_buffer_discarded [[100, 97, 116, 97, 58, 32, 104, 105]] (by decide),
   by decide, by decide⟩

end FastAgent
